import Mathlib

/-!
Verification of the tabular benchmark-runner specification for the
polars-vs-pandas deep-dive repository.

The repository's single script (`src/polars_eda.py`) drives a fixed pipeline of
relational operations — load, project, derive a conditional column, filter,
sort, group-and-aggregate, join, concatenate — through an external dataframe
library, timing each step.  The operations themselves are implemented by that
external library, so each operation below is modelled from the specification's
contract for it (section 4 of the spec), and the theorems settle the spec's
testable properties against those models.

A dataset is an ordered list of named columns together with rows; a row is an
association list from column name to value, aligned with the column list in a
well-formed dataset.  Values are null, (mathematical) integers, or strings;
column-width concerns (Int32 versus Int64) appear only in the concatenation
model, where the spec's type-widening contract needs them.
-/

namespace PolarsEda

/-- A cell value: null, integer, or string.  Machine integer widths are
tracked separately by `ColType` where concatenation needs them; values
themselves are mathematical integers. -/
inductive Value where
  | vnull : Value
  | vint : Int → Value
  | vstr : String → Value
deriving DecidableEq, Repr

/-- A row is an association list from column name to value. -/
abbrev Row := List (String × Value)

/-- A tabular dataset: an ordered list of column names and a list of rows.
In a well-formed dataset every row's name sequence equals `cols`. -/
structure Dataset where
  cols : List String
  rows : List Row
deriving DecidableEq, Repr

/-- Well-formedness: column names are distinct and every row is aligned with
the column list. -/
def Dataset.WF (d : Dataset) : Prop :=
  d.cols.Nodup ∧ ∀ r ∈ d.rows, r.map Prod.fst = d.cols

/-- Look up the value of column `c` in a row; null when the column is absent
(the spec's MissingColumnError path never feeds a value onward, so absent
columns read as null in expressions). -/
def rowGet (r : Row) (c : String) : Value :=
  ((r.find? (fun p => p.1 == c)).map Prod.snd).getD Value.vnull

/-- Modelled from the spec: the Filter operation (spec 4.1 op 4) — "returns
the subset of rows satisfying the predicate, preserving original row order".
The predicate is an arbitrary boolean row predicate. -/
def filterDS (d : Dataset) (p : Row → Bool) : Dataset :=
  { cols := d.cols, rows := d.rows.filter p }

/-- A column expression for Project: a pass-through column reference or a
computed, named expression over the row (spec 4.1 op 2). -/
inductive ColExpr where
  | ref : String → ColExpr
  | compute : String → (Row → Value) → ColExpr

/-- The output column name of a column expression. -/
def ColExpr.name : ColExpr → String
  | .ref c => c
  | .compute n _ => n

/-- Evaluate a column expression on a row, producing the output cell. -/
def ColExpr.eval (e : ColExpr) (r : Row) : String × Value :=
  match e with
  | .ref c => (c, rowGet r c)
  | .compute n f => (n, f r)

/-- Modelled from the spec: the Project operation (spec 4.1 op 2) — "returns a
dataset containing only the requested/derived columns, same row count and
order as input". -/
def select (d : Dataset) (es : List ColExpr) : Dataset :=
  { cols := es.map ColExpr.name
  , rows := d.rows.map (fun r => es.map (fun e => e.eval r)) }

/-! ### Basic lemmas about row lookup -/

theorem rowGet_cons_self (c : String) (v : Value) (r : Row) :
    rowGet ((c, v) :: r) c = v := by
  simp [rowGet, List.find?_cons_of_pos]

theorem rowGet_cons_ne (c c' : String) (v : Value) (r : Row) (h : c' ≠ c) :
    rowGet ((c', v) :: r) c = rowGet r c := by
  simp only [rowGet, List.find?]
  have : ((c', v).1 == c) = false := by simpa using h
  simp [this]

/-- Reconstructing a well-formed row from its own column names by lookup
gives back the row. -/
theorem map_rowGet_self (r : Row) (hnd : (r.map Prod.fst).Nodup) :
    (r.map Prod.fst).map (fun c => (c, rowGet r c)) = r := by
  induction r with
  | nil => rfl
  | cons p rest ih =>
    obtain ⟨c0, v0⟩ := p
    simp only [List.map_cons, List.map_map]
    have hnd' := hnd
    simp only [List.map_cons, List.nodup_cons] at hnd'
    obtain ⟨hc0, hrest⟩ := hnd'
    rw [rowGet_cons_self]
    congr 1
    calc rest.map ((fun c => (c, rowGet ((c0, v0) :: rest) c)) ∘ Prod.fst)
          = (rest.map Prod.fst).map (fun c => (c, rowGet ((c0, v0) :: rest) c)) := by
            rw [List.map_map]
        _ = (rest.map Prod.fst).map (fun c => (c, rowGet rest c)) := by
            apply List.map_congr_left
            intro c hc
            have hne : c ≠ c0 := fun h => hc0 (h ▸ hc)
            simp [rowGet_cons_ne c c0 v0 rest hne.symm]
        _ = rest := ih hrest

/-! ### Claim C7: filter correctness -/

/-- Count of a fixed row in a filtered row list. -/
theorem count_filter_rows (p : Row → Bool) (r : Row) (l : List Row) :
    (l.filter p).count r = if p r then l.count r else 0 := by
  induction l with
  | nil => simp
  | cons a l ih =>
    by_cases hpa : p a
    · by_cases har : a = r
      · subst har
        simp [List.filter_cons, hpa, List.count_cons, ih]
      · simp [List.filter_cons, hpa, List.count_cons, har, ih]
    · by_cases har : a = r
      · subst har
        simp [List.filter_cons, hpa, List.count_cons, ih]
      · simp [List.filter_cons, hpa, List.count_cons, har, ih]

/-- The scenario dataset for the filter claim: a single Year column holding
the values 2005, 2007, 2010. -/
def exYear : Dataset :=
  { cols := ["Year"]
  , rows := [ [("Year", Value.vint 2005)]
            , [("Year", Value.vint 2007)]
            , [("Year", Value.vint 2010)] ] }

/-- The predicate `Year < 2007` of the filter scenario (a null or non-integer
Year never satisfies a `<` comparison). -/
def yearLt2007 (r : Row) : Bool :=
  match rowGet r "Year" with
  | Value.vint y => decide (y < 2007)
  | _ => false

/-- C7: for every dataset D and boolean predicate P, filter(D, P) contains
exactly the rows of D on which P holds (multiplicity included), preserves
their relative order (the result is a sublist of the input), and has row
count at most |D|; filtering Year < 2007 over Year values [2005, 2007, 2010]
keeps exactly the 2005 row. -/
theorem C7_filter_correct (d : Dataset) (p : Row → Bool) :
    (∀ r : Row, (filterDS d p).rows.count r = if p r then d.rows.count r else 0)
    ∧ (filterDS d p).rows.Sublist d.rows
    ∧ (filterDS d p).rows.length ≤ d.rows.length
    ∧ (filterDS exYear yearLt2007).rows = [[("Year", Value.vint 2005)]] := by
  refine ⟨fun r => count_filter_rows p r d.rows, ?_, ?_, ?_⟩
  · exact List.filter_sublist d.rows
  · exact List.length_filter_le p d.rows
  · decide

/-- A small well-formed two-column dataset used to witness the identity
projection claim at a concrete input. -/
def exProj : Dataset :=
  { cols := ["Year", "count"]
  , rows := [ [("Year", Value.vint 2006), ("count", Value.vint 10)]
            , [("Year", Value.vint 2013), ("count", Value.vnull)] ] }

/-- C8: projecting a well-formed dataset onto pass-through references of all
of its own columns is the identity: row count, order, and every value are
preserved. -/
theorem C8_identity_projection (d : Dataset) (h : d.WF) :
    select d (d.cols.map ColExpr.ref) = d := by
  obtain ⟨hnd, hrows⟩ := h
  obtain ⟨cols, rows⟩ := d
  simp only [select]
  congr 1
  · rw [List.map_map]
    have hid : ∀ c ∈ cols, (ColExpr.name ∘ ColExpr.ref) c = c := fun c _ => rfl
    rw [List.map_congr_left hid, List.map_id']
  · have hr : ∀ r ∈ rows, (cols.map ColExpr.ref).map (fun e => e.eval r) = r := by
      intro r hmem
      have halign : r.map Prod.fst = cols := hrows r hmem
      have hstep : (cols.map ColExpr.ref).map (fun e => e.eval r)
          = cols.map (fun c => (c, rowGet r c)) := by
        simp [List.map_map, ColExpr.eval, Function.comp]
      rw [hstep, ← halign]
      exact map_rowGet_self r (by rw [halign]; exact hnd)
    calc rows.map (fun r => (cols.map ColExpr.ref).map (fun e => e.eval r))
        = rows.map (fun r => r) := List.map_congr_left hr
      _ = rows := List.map_id' rows

/-- Witness for C8 at a concrete dataset. -/
theorem C8_identity_projection_witness :
    exProj.WF ∧ select exProj (exProj.cols.map ColExpr.ref) = exProj :=
  ⟨⟨by decide, by decide⟩, C8_identity_projection exProj ⟨by decide, by decide⟩⟩

/-! ### Claim C3: load error tolerance -/

/-- A parse failure, carrying the raw text of the offending row. -/
structure ParseError where
  raw : String
deriving DecidableEq, Repr

/-- Modelled from the spec: the Load operation's row-decoding loop (spec 4.1
op 1) — "On malformed rows, skip them when error-tolerance is enabled;
otherwise the operation fails with a ParseError."  `decode` is the
schema-directed row decoder (declared overrides already applied); it returns
none exactly on a malformed raw row. -/
def load (tolerant : Bool) (decode : String → Option Row) :
    List String → Except ParseError (List Row)
  | [] => Except.ok []
  | s :: ss =>
    match decode s with
    | some r => (load tolerant decode ss).map (fun rs => r :: rs)
    | none => if tolerant then load tolerant decode ss else Except.error ⟨s⟩

/-- C3: with error tolerance enabled, load skips every malformed row and
returns exactly the rows that decode, in order; with it disabled, load
succeeds when all rows decode and fails with a ParseError naming the first
malformed row otherwise. -/
theorem C3_load_error_tolerance (decode : String → Option Row) (raw : List String) :
    load true decode raw = Except.ok (raw.filterMap decode)
    ∧ ((∀ s ∈ raw, (decode s).isSome) →
        load false decode raw = Except.ok (raw.filterMap decode))
    ∧ (∀ pre bad rest, raw = pre ++ bad :: rest → (∀ s ∈ pre, (decode s).isSome) →
        decode bad = none → load false decode raw = Except.error ⟨bad⟩) := by
  refine ⟨?_, ?_, ?_⟩
  · induction raw with
    | nil => rfl
    | cons s ss ih =>
      cases hds : decode s with
      | some r => simp [load, hds, ih, List.filterMap_cons, Except.map]
      | none => simp [load, hds, ih, List.filterMap_cons, Except.map]
  · intro hall
    induction raw with
    | nil => rfl
    | cons s ss ih =>
      have hs := hall s (by simp)
      obtain ⟨r, hr⟩ := Option.isSome_iff_exists.mp hs
      have ihs := ih (fun t ht => hall t (by simp [ht]))
      simp [load, hr, ihs, List.filterMap_cons, Except.map]
  · intro pre bad rest hraw hpre hbad
    subst hraw
    induction pre with
    | nil => simp [load, hbad]
    | cons s ss ih =>
      have hs := hpre s (by simp)
      obtain ⟨r, hr⟩ := Option.isSome_iff_exists.mp hs
      have := ih (fun t ht => hpre t (by simp [ht]))
      simp [load, hr, this, Except.map]

/-- A concrete decoder for the load witness: accepts "2006,10" and "2013,20"
and rejects everything else. -/
def exDecode (s : String) : Option Row :=
  if s = "2006,10" then some [("Year", Value.vint 2006), ("count", Value.vint 10)]
  else if s = "2013,20" then some [("Year", Value.vint 2013), ("count", Value.vint 20)]
  else none

/-- Witness for C3: on a raw input with one malformed row, tolerant load keeps
exactly the well-formed rows, and strict load fails with the ParseError for
that row. -/
theorem C3_load_error_tolerance_witness :
    load true exDecode ["2006,10", "oops", "2013,20"]
        = Except.ok [ [("Year", Value.vint 2006), ("count", Value.vint 10)]
                    , [("Year", Value.vint 2013), ("count", Value.vint 20)] ]
    ∧ load false exDecode ["2006,10", "oops", "2013,20"] = Except.error ⟨"oops"⟩ := by
  have h := C3_load_error_tolerance exDecode ["2006,10", "oops", "2013,20"]
  refine ⟨?_, ?_⟩
  · rw [h.1]; rfl
  · exact h.2.2 ["2006,10"] "oops" ["2013,20"] rfl (by decide) (by decide)

/-! ### Claim C6: derived conditional column, first match wins -/

/-- Evaluate an ordered branch list on a source value: the value of the first
branch whose condition holds, else the default (spec 4.1 op 3). -/
def firstMatch : List ((Value → Bool) × Value) → Value → Value → Value
  | [], dflt, _ => dflt
  | b :: bs, dflt, v => if b.1 v then b.2 else firstMatch bs dflt v

/-- Modelled from the spec: Derive conditional column (spec 4.1 op 3) —
appends one new column whose per-row value is chosen by the first matching
branch over the source column's value, else the default. -/
def deriveColumn (d : Dataset) (newName src : String)
    (branches : List ((Value → Bool) × Value)) (dflt : Value) : Dataset :=
  { cols := d.cols ++ [newName]
  , rows := d.rows.map
      (fun r => r ++ [(newName, firstMatch branches dflt (rowGet r src))]) }

/-- Characterisation of `firstMatch`: the result is the value of the first
branch whose condition holds on the source value — every earlier branch's
condition fails — or the default when no branch matches. -/
theorem firstMatch_spec (branches : List ((Value → Bool) × Value))
    (dflt v : Value) :
    (∃ k, ∃ hk : k < branches.length,
        (branches.get ⟨k, hk⟩).1 v = true
        ∧ (∀ j (hj : j < k), (branches.get ⟨j, Nat.lt_trans hj hk⟩).1 v = false)
        ∧ firstMatch branches dflt v = (branches.get ⟨k, hk⟩).2)
    ∨ ((∀ b ∈ branches, b.1 v = false) ∧ firstMatch branches dflt v = dflt) := by
  induction branches with
  | nil => exact Or.inr ⟨by simp, rfl⟩
  | cons b bs ih =>
    by_cases hb : b.1 v
    · refine Or.inl ⟨0, Nat.succ_pos _, ?_, ?_, ?_⟩
      · simpa using hb
      · intro j hj; omega
      · simp [firstMatch, hb]
    · rcases ih with ⟨k, hk, hcond, hearlier, hval⟩ | ⟨hnone, hval⟩
      · refine Or.inl ⟨k + 1, Nat.succ_lt_succ hk, ?_, ?_, ?_⟩
        · simpa using hcond
        · intro j hj
          cases j with
          | zero => simpa using (Bool.not_eq_true _).mp hb
          | succ j' =>
            have hj' : j' < k := Nat.lt_of_succ_lt_succ hj
            simpa using hearlier j' hj'
        · simp [firstMatch, hb, hval]
      · refine Or.inr ⟨?_, ?_⟩
        · intro b' hb'
          rcases List.mem_cons.mp hb' with hb'' | hb''
          · subst hb''; exact (Bool.not_eq_true _).mp hb
          · exact hnone b' hb''
        · simp [firstMatch, hb, hval]

/-- The scenario input for the derive claim: a single Sex column with code
values 1, 2, 3. -/
def exSex : Dataset :=
  { cols := ["Sex"]
  , rows := [ [("Sex", Value.vint 1)]
            , [("Sex", Value.vint 2)]
            , [("Sex", Value.vint 3)] ] }

/-- The gender branch list of the script: Sex = 1 maps to "male", Sex = 2 to
"female"; the default is "others". -/
def genderBranches : List ((Value → Bool) × Value) :=
  [ (fun v => decide (v = Value.vint 1), Value.vstr "male")
  , (fun v => decide (v = Value.vint 2), Value.vstr "female") ]

/-- C6: the derive operation adds exactly one value per row, chosen as the
value of the first branch whose condition holds on the row's source value,
else the default; on Sex codes [1, 2, 3] with branches 1→"male", 2→"female"
and default "others", the new column reads ["male", "female", "others"]. -/
theorem C6_derive_first_match (d : Dataset) (nn src : String)
    (branches : List ((Value → Bool) × Value)) (dflt : Value) :
    (deriveColumn d nn src branches dflt).rows.length = d.rows.length
    ∧ (∀ i (hi : i < d.rows.length)
          (hi' : i < (deriveColumn d nn src branches dflt).rows.length),
        ∃ out : Value,
          (deriveColumn d nn src branches dflt).rows.get ⟨i, hi'⟩
              = d.rows.get ⟨i, hi⟩ ++ [(nn, out)]
          ∧ ((∃ k, ∃ hk : k < branches.length,
                (branches.get ⟨k, hk⟩).1 (rowGet (d.rows.get ⟨i, hi⟩) src) = true
                ∧ (∀ j (hj : j < k),
                    (branches.get ⟨j, Nat.lt_trans hj hk⟩).1
                      (rowGet (d.rows.get ⟨i, hi⟩) src) = false)
                ∧ out = (branches.get ⟨k, hk⟩).2)
            ∨ ((∀ b ∈ branches, b.1 (rowGet (d.rows.get ⟨i, hi⟩) src) = false)
                ∧ out = dflt)))
    ∧ (deriveColumn exSex "gender" "Sex" genderBranches (Value.vstr "others")).rows.map
          (fun r => rowGet r "gender")
        = [Value.vstr "male", Value.vstr "female", Value.vstr "others"] := by
  refine ⟨by simp [deriveColumn], ?_, by decide⟩
  intro i hi hi'
  have hget : (deriveColumn d nn src branches dflt).rows.get ⟨i, hi'⟩
      = d.rows.get ⟨i, hi⟩
        ++ [(nn, firstMatch branches dflt (rowGet (d.rows.get ⟨i, hi⟩) src))] := by
    simp [deriveColumn, List.get_eq_getElem, List.getElem_map]
  refine ⟨firstMatch branches dflt (rowGet (d.rows.get ⟨i, hi⟩) src), hget, ?_⟩
  rcases firstMatch_spec branches dflt (rowGet (d.rows.get ⟨i, hi⟩) src) with
    ⟨k, hk, hcond, hearlier, hval⟩ | ⟨hnone, hval⟩
  · exact Or.inl ⟨k, hk, hcond, hearlier, hval⟩
  · exact Or.inr ⟨hnone, hval⟩

/-- Witness for C6: at the scenario dataset's first row, the derived cell is
the first branch's value "male". -/
theorem C6_derive_first_match_witness :
    0 < exSex.rows.length
    ∧ ∃ out : Value,
        (deriveColumn exSex "gender" "Sex" genderBranches
            (Value.vstr "others")).rows.get ⟨0, by decide⟩
            = exSex.rows.get ⟨0, by decide⟩ ++ [("gender", out)]
        ∧ ((∃ k, ∃ hk : k < genderBranches.length,
              (genderBranches.get ⟨k, hk⟩).1
                  (rowGet (exSex.rows.get ⟨0, by decide⟩) "Sex") = true
              ∧ (∀ j (hj : j < k),
                  (genderBranches.get ⟨j, Nat.lt_trans hj hk⟩).1
                    (rowGet (exSex.rows.get ⟨0, by decide⟩) "Sex") = false)
              ∧ out = (genderBranches.get ⟨k, hk⟩).2)
          ∨ ((∀ b ∈ genderBranches,
                b.1 (rowGet (exSex.rows.get ⟨0, by decide⟩) "Sex") = false)
              ∧ out = Value.vstr "others")) :=
  ⟨by decide,
   (C6_derive_first_match exSex "gender" "Sex" genderBranches
      (Value.vstr "others")).2.1 0 (by decide) (by decide)⟩

/-! ### The derive step's column removal (used by claim C10, settled at the
end of the file once the later pipeline stages are defined) -/

/-- Modelled from the spec: column removal, the second half of the script's
derive step (`df_derive.drop(['Sex'])`) — a Derived Dataset operation in the
sense of spec section 3: the named columns and their cells are removed, all
other columns, rows and values are kept. -/
def dropCols (d : Dataset) (names : List String) : Dataset :=
  { cols := d.cols.filter (fun c => !(names.contains c))
  , rows := d.rows.map (fun r => r.filter (fun p => !(names.contains p.1))) }

/-- The script's full gender-derivation step: derive the gender column from
the Sex codes by first-match branches, then drop the Sex column. -/
def deriveGenderStep (d : Dataset) : Dataset :=
  dropCols (deriveColumn d "gender" "Sex" genderBranches (Value.vstr "others")) ["Sex"]

/-- The values of one column of a dataset, in row order. -/
def colVals (d : Dataset) (c : String) : List Value :=
  d.rows.map (fun r => rowGet r c)

/-- Looking up a column that occurs in the left part of an appended row reads
from the left part. -/
theorem rowGet_append_left (r s : Row) (c : String) (h : c ∈ r.map Prod.fst) :
    rowGet (r ++ s) c = rowGet r c := by
  induction r with
  | nil => simp at h
  | cons p rest ih =>
    obtain ⟨c0, v0⟩ := p
    by_cases hc : c0 = c
    · subst hc
      simp [rowGet_cons_self]
    · have hc' : c ∈ rest.map Prod.fst := by
        simp only [List.map_cons, List.mem_cons] at h
        rcases h with h | h
        · exact absurd h.symm hc
        · exact h
      simp only [List.cons_append]
      rw [rowGet_cons_ne c c0 v0 (rest ++ s) hc, rowGet_cons_ne c c0 v0 rest hc]
      exact ih hc'

/-- Looking up a column absent from the left part of an appended row reads
from the right part. -/
theorem rowGet_append_right (r s : Row) (c : String) (h : c ∉ r.map Prod.fst) :
    rowGet (r ++ s) c = rowGet s c := by
  induction r with
  | nil => rfl
  | cons p rest ih =>
    obtain ⟨c0, v0⟩ := p
    simp only [List.map_cons, List.mem_cons, not_or] at h
    obtain ⟨hc0, hrest⟩ := h
    simp only [List.cons_append]
    rw [rowGet_cons_ne c c0 v0 (rest ++ s) (fun he => hc0 he.symm)]
    exact ih hrest

/-- Filtering a row with a predicate that keeps every cell of column `c` does
not change the lookup of `c`. -/
theorem rowGet_filter (r : Row) (q : String × Value → Bool) (c : String)
    (h : ∀ v : Value, q (c, v) = true) :
    rowGet (r.filter q) c = rowGet r c := by
  induction r with
  | nil => rfl
  | cons p rest ih =>
    obtain ⟨c0, v0⟩ := p
    by_cases hc : c0 = c
    · subst hc
      rw [List.filter_cons_of_pos (h v0)]
      rw [rowGet_cons_self, rowGet_cons_self]
    · cases hq : q (c0, v0) with
      | true =>
        rw [List.filter_cons_of_pos hq]
        rw [rowGet_cons_ne c c0 v0 (rest.filter q) hc, rowGet_cons_ne c c0 v0 rest hc]
        exact ih
      | false =>
        rw [List.filter_cons_of_neg (by simp [hq])]
        rw [rowGet_cons_ne c c0 v0 rest hc]
        exact ih

/-! ### Claim C4: concatenation with type widening -/

/-- Physical column types tracked by the concatenation model: 32-bit and
64-bit signed integer columns and string columns. -/
inductive ColType where
  | int32 : ColType
  | int64 : ColType
  | utf8 : ColType
deriving DecidableEq, Repr

/-- Does a value have a lossless representation at a column type?  Null is
representable at every type; an integer is representable at a width when it
lies within that width's signed range. -/
def fits : ColType → Value → Bool
  | _, Value.vnull => true
  | ColType.int32, Value.vint n => decide (-2147483648 ≤ n ∧ n < 2147483648)
  | ColType.int64, Value.vint n =>
      decide (-9223372036854775808 ≤ n ∧ n < 9223372036854775808)
  | ColType.utf8, Value.vstr _ => true
  | _, _ => false

/-- Widen two column types in the vertical_relaxed sense: equal types stay,
Int32 against Int64 widens to Int64, mismatched kinds are irreconcilable. -/
def widen : ColType → ColType → Option ColType
  | ColType.int32, ColType.int32 => some ColType.int32
  | ColType.int32, ColType.int64 => some ColType.int64
  | ColType.int64, ColType.int32 => some ColType.int64
  | ColType.int64, ColType.int64 => some ColType.int64
  | ColType.utf8, ColType.utf8 => some ColType.utf8
  | _, _ => none

/-- Widen two schemas position by position; none when any position is
irreconcilable or the lengths differ. -/
def zipWiden : List ColType → List ColType → Option (List ColType)
  | [], [] => some []
  | t :: ts, u :: us =>
    match widen t u, zipWiden ts us with
    | some w, some ws => some (w :: ws)
    | _, _ => none
  | _, _ => none

/-- A dataset whose columns carry declared physical types, as the
concatenation contract needs. -/
structure TypedDataset where
  cols : List String
  tys : List ColType
  rows : List Row
deriving DecidableEq, Repr

/-- Modelled from the spec: the Concatenate operation (spec 4.1 op 8) —
"returns a dataset with all rows of both, in the order: first dataset's rows,
then second's", widening compatible column types and failing with a
SchemaMismatchError on incompatible kinds. -/
def concatRelaxed (a b : TypedDataset) : Except String TypedDataset :=
  if a.cols = b.cols then
    match zipWiden a.tys b.tys with
    | some ts => Except.ok { cols := a.cols, tys := ts, rows := a.rows ++ b.rows }
    | none => Except.error "SchemaMismatchError"
  else Except.error "SchemaMismatchError"

/-- A widened type represents losslessly every value either input type
represents. -/
theorem widen_fits (t u w : ColType) (h : widen t u = some w) :
    (∀ v, fits t v = true → fits w v = true)
    ∧ (∀ v, fits u v = true → fits w v = true) := by
  cases t <;> cases u <;> simp [widen] at h <;> subst h <;>
    refine ⟨?_, ?_⟩ <;> intro v hv <;> cases v <;> simp [fits] at hv ⊢ <;> omega

/-- Positionwise content of a widened schema. -/
theorem zipWiden_get (ts us ws : List ColType) (h : zipWiden ts us = some ws) :
    ∀ i t u w, ts.get? i = some t → us.get? i = some u → ws.get? i = some w →
      widen t u = some w := by
  induction ts generalizing us ws with
  | nil =>
    cases us with
    | nil =>
      simp only [zipWiden] at h
      cases h
      intro i t u w ht
      simp at ht
    | cons u us' => simp [zipWiden] at h
  | cons t0 ts' ih =>
    cases us with
    | nil => simp [zipWiden] at h
    | cons u0 us' =>
      simp only [zipWiden] at h
      cases hw : widen t0 u0 with
      | none => rw [hw] at h; simp at h
      | some w0 =>
        rw [hw] at h
        cases hz : zipWiden ts' us' with
        | none => rw [hz] at h; simp at h
        | some ws' =>
          rw [hz] at h
          simp only [Option.some.injEq] at h
          subst h
          intro i t u w ht hu hws
          cases i with
          | zero =>
            simp only [List.get?] at ht hu hws
            cases ht; cases hu; cases hws
            exact hw
          | succ i' =>
            simp only [List.get?] at ht hu hws
            exact ih us' ws' hz i' t u w ht hu hws

/-- C4: a successful relaxed concatenation has row count |A| + |B|, its rows
are exactly A's rows followed by B's rows with values unchanged, every result
column type losslessly represents what either input column type represents,
and Int32 against Int64 widens to Int64 (the wider type), losslessly. -/
theorem C4_concat_roundtrip (a b c : TypedDataset)
    (h : concatRelaxed a b = Except.ok c) :
    c.rows.length = a.rows.length + b.rows.length
    ∧ c.rows = a.rows ++ b.rows
    ∧ (∀ i t u w, a.tys.get? i = some t → b.tys.get? i = some u →
        c.tys.get? i = some w →
        (∀ v, fits t v = true → fits w v = true)
        ∧ (∀ v, fits u v = true → fits w v = true))
    ∧ widen ColType.int32 ColType.int64 = some ColType.int64
    ∧ (∀ v, fits ColType.int32 v = true → fits ColType.int64 v = true) := by
  unfold concatRelaxed at h
  by_cases hc : a.cols = b.cols
  · rw [if_pos hc] at h
    cases hz : zipWiden a.tys b.tys with
    | none => rw [hz] at h; cases h
    | some ts =>
      rw [hz] at h
      simp only [Except.ok.injEq] at h
      subst h
      refine ⟨by simp, rfl, ?_, rfl, ?_⟩
      · intro i t u w ht hu hw
        exact widen_fits t u w (zipWiden_get a.tys b.tys ts hz i t u w ht hu hw)
      · intro v hv
        cases v <;> simp [fits] at hv ⊢ <;> omega
  · rw [if_neg hc] at h
    cases h

/-- The witness inputs for concatenation: common columns Year and count, with
count declared Int32 on one side and Int64 on the other. -/
def exConcatA : TypedDataset :=
  { cols := ["Year", "count"]
  , tys := [ColType.int64, ColType.int32]
  , rows := [[("Year", Value.vint 2006), ("count", Value.vint 10)]] }

/-- The second witness input for concatenation, with an Int64 count value too
wide for Int32. -/
def exConcatB : TypedDataset :=
  { cols := ["Year", "count"]
  , tys := [ColType.int64, ColType.int64]
  , rows := [[("Year", Value.vint 2020), ("count", Value.vint 5000000000)]] }

/-- Witness for C4: the concrete Int32/Int64 concatenation succeeds with an
Int64 count column and both rows kept in order. -/
theorem C4_concat_roundtrip_witness :
    concatRelaxed exConcatA exConcatB
        = Except.ok { cols := ["Year", "count"]
                    , tys := [ColType.int64, ColType.int64]
                    , rows := exConcatA.rows ++ exConcatB.rows }
    ∧ (TypedDataset.rows { cols := ["Year", "count"]
                         , tys := [ColType.int64, ColType.int64]
                         , rows := exConcatA.rows ++ exConcatB.rows }).length
        = exConcatA.rows.length + exConcatB.rows.length := by
  have h : concatRelaxed exConcatA exConcatB
      = Except.ok { cols := ["Year", "count"]
                  , tys := [ColType.int64, ColType.int64]
                  , rows := exConcatA.rows ++ exConcatB.rows } := rfl
  exact ⟨h, (C4_concat_roundtrip exConcatA exConcatB _ h).1⟩

/-! ### Claim C5: group and aggregate -/

/-- Insert one row's key and numeric value into the running group list:
append the value to the key's existing group, or open a new group at the
end. -/
def insertGroup {K : Type} [DecidableEq K] (k : K) (n : Int) :
    List (K × List Int) → List (K × List Int)
  | [] => [(k, [n])]
  | g :: gs => if g.1 = k then (g.1, g.2 ++ [n]) :: gs else g :: insertGroup k n gs

/-- Modelled from the spec: the stable grouping pass of Group and aggregate
(spec 4.1 op 6) — fold the rows left to right into groups keyed by the
grouping expression, keeping groups in order of first appearance; `num`
reads the numeric column being aggregated. -/
def groupRows {K : Type} [DecidableEq K] (key : Row → K) (num : Row → Int)
    (rows : List Row) : List (K × List Int) :=
  rows.foldl (fun acc r => insertGroup (key r) (num r) acc) []

/-- The numeric values collected for key `k` (empty when `k` has no group). -/
def bucketOf {K : Type} [DecidableEq K] (k : K) (l : List (K × List Int)) :
    List Int :=
  ((l.find? (fun g => decide (g.1 = k))).map Prod.snd).getD []

/-- The distinct elements of a list in order of first appearance. -/
def firstOccur {K : Type} [DecidableEq K] : List K → List K
  | [] => []
  | k :: ks => k :: (firstOccur ks).filter (fun x => decide (x ≠ k))

/-- The key of the grouping columns on a row: the tuple of their values. -/
def keyOf (gcols : List String) (r : Row) : List Value :=
  gcols.map (rowGet r)

/-- The numeric reading of the aggregated column on a row; a null or
non-integer cell contributes 0 to a sum, as null-skipping summation does. -/
def numOf (ncol : String) (r : Row) : Int :=
  match rowGet r ncol with
  | Value.vint n => n
  | _ => 0

/-- Modelled from the spec: Group and aggregate (spec 4.1 op 6) with the sum
aggregate — one output row per group, in order of first appearance, holding
the group-key cells and the sum of the group's values of the aggregated
column. -/
def groupAndAggregate (d : Dataset) (gcols : List String) (ncol out : String) :
    Dataset :=
  { cols := gcols ++ [out]
  , rows := (groupRows (keyOf gcols) (numOf ncol) d.rows).map
      (fun g => gcols.zip g.1 ++ [(out, Value.vint g.2.sum)]) }

/-- Keys after one insertion: unchanged when the key already has a group,
extended at the end otherwise. -/
theorem keys_insertGroup {K : Type} [DecidableEq K] (k : K) (n : Int)
    (l : List (K × List Int)) :
    (insertGroup k n l).map Prod.fst
      = if k ∈ l.map Prod.fst then l.map Prod.fst else l.map Prod.fst ++ [k] := by
  induction l with
  | nil => simp [insertGroup]
  | cons g gs ih =>
    by_cases hgk : g.1 = k
    · simp [insertGroup, hgk]
    · have hne : k ≠ g.1 := fun he => hgk he.symm
      by_cases hmem : k ∈ gs.map Prod.fst
      · simp [insertGroup, hgk, ih, hmem, hne]
      · simp [insertGroup, hgk, ih, hmem, hne]

/-- The bucket of the head key of a group list is the head's values. -/
theorem bucketOf_cons {K : Type} [DecidableEq K] (k' : K) (g : K × List Int)
    (l : List (K × List Int)) :
    bucketOf k' (g :: l) = if g.1 = k' then g.2 else bucketOf k' l := by
  by_cases h : g.1 = k'
  · simp [bucketOf, List.find?_cons_of_pos, h]
  · simp [bucketOf, List.find?_cons_of_neg, h]

/-- Bucket contents after one insertion: the inserted value lands at the end
of exactly its key's bucket. -/
theorem bucketOf_insertGroup {K : Type} [DecidableEq K] (k' k : K) (n : Int)
    (l : List (K × List Int)) :
    bucketOf k' (insertGroup k n l)
      = if k' = k then bucketOf k' l ++ [n] else bucketOf k' l := by
  induction l with
  | nil =>
    by_cases hk : k' = k
    · subst hk
      simp [insertGroup, bucketOf]
    · have hne : (k : K) ≠ k' := fun he => hk he.symm
      simp [insertGroup, bucketOf_cons, hne, hk, bucketOf]
  | cons g gs ih =>
    by_cases hgk : g.1 = k
    · simp only [insertGroup, if_pos hgk, bucketOf_cons]
      by_cases hk : k' = k
      · have hg' : g.1 = k' := by rw [hgk, hk]
        simp [hg', hk]
      · have hg' : g.1 ≠ k' := by rw [hgk]; exact fun he => hk he.symm
        simp [hg', hk]
    · simp only [insertGroup, if_neg hgk, bucketOf_cons, ih]
      by_cases hg' : g.1 = k'
      · have hk : ¬ k' = k := fun he => hgk (by rw [hg', he])
        simp [hg', hk]
      · by_cases hk : k' = k <;> simp [hg', hk, hgk]

/-- Keys of the grouping fold: the accumulator's keys, then the new keys of
the remaining rows in order of first appearance. -/
theorem keys_groupFold {K : Type} [DecidableEq K] (key : Row → K) (num : Row → Int)
    (rows : List Row) :
    ∀ acc : List (K × List Int),
      (rows.foldl (fun a r => insertGroup (key r) (num r) a) acc).map Prod.fst
        = acc.map Prod.fst
          ++ (firstOccur (rows.map key)).filter
              (fun x => !(decide (x ∈ acc.map Prod.fst))) := by
  induction rows with
  | nil => intro acc; simp [firstOccur]
  | cons r rs ih =>
    intro acc
    simp only [List.foldl_cons, List.map_cons, firstOccur]
    rw [ih (insertGroup (key r) (num r) acc)]
    rw [keys_insertGroup]
    by_cases hmem : key r ∈ acc.map Prod.fst
    · rw [if_pos hmem, List.filter_cons]
      have hP : (!(decide (key r ∈ acc.map Prod.fst))) = false := by simp [hmem]
      rw [hP]
      simp only [Bool.false_eq_true, if_neg, ite_false]
      rw [List.filter_filter]
      congr 1
      apply List.filter_congr
      intro x _
      by_cases hxa : x ∈ acc.map Prod.fst
      · simp [hxa]
      · have hxk : x ≠ key r := fun he => hxa (he ▸ hmem)
        simp [hxa, hxk]
    · rw [if_neg hmem, List.filter_cons]
      have hP : (!(decide (key r ∈ acc.map Prod.fst))) = true := by simp [hmem]
      rw [hP]
      simp only [if_pos, ite_true]
      rw [List.filter_filter, List.append_assoc, List.singleton_append]
      have hfe : (firstOccur (rs.map key)).filter
            (fun x => !(decide (x ∈ acc.map Prod.fst ++ [key r])))
          = (firstOccur (rs.map key)).filter
            (fun a => !(decide (a ∈ acc.map Prod.fst)) && decide (a ≠ key r)) := by
        apply List.filter_congr
        intro x _
        by_cases hxk : x = key r
        · simp [hxk]
        · by_cases hxa : x ∈ acc.map Prod.fst <;> simp [hxk, hxa]
      rw [hfe]

/-- Buckets of the grouping fold: each key's bucket is its accumulator bucket
followed by the numeric values of exactly that key's rows, in row order. -/
theorem bucketOf_groupFold {K : Type} [DecidableEq K] (key : Row → K)
    (num : Row → Int) (rows : List Row) :
    ∀ (acc : List (K × List Int)) (k : K),
      bucketOf k (rows.foldl (fun a r => insertGroup (key r) (num r) a) acc)
        = bucketOf k acc
          ++ (rows.filter (fun r => decide (key r = k))).map num := by
  induction rows with
  | nil => intro acc k; simp
  | cons r rs ih =>
    intro acc k
    simp only [List.foldl_cons]
    rw [ih (insertGroup (key r) (num r) acc) k, bucketOf_insertGroup,
      List.filter_cons]
    by_cases hk : key r = k
    · have hd : (decide (key r = k)) = true := by simp [hk]
      rw [if_pos hk.symm, hd]
      simp [List.append_assoc]
    · have hd : (decide (key r = k)) = false := by simp [hk]
      rw [if_neg (fun he => hk (he : k = key r).symm), hd]
      simp

/-- The distinct-in-order list has no duplicates. -/
theorem nodup_firstOccur {K : Type} [DecidableEq K] (l : List K) :
    (firstOccur l).Nodup := by
  induction l with
  | nil => simp [firstOccur]
  | cons k ks ih =>
    simp only [firstOccur, List.nodup_cons]
    refine ⟨?_, ih.filter _⟩
    intro hmem
    have := (List.mem_filter.mp hmem).2
    simp at this

/-- The distinct-in-order list has the same members as the input. -/
theorem mem_firstOccur {K : Type} [DecidableEq K] (x : K) (l : List K) :
    x ∈ firstOccur l ↔ x ∈ l := by
  induction l with
  | nil => simp [firstOccur]
  | cons k ks ih =>
    simp only [firstOccur, List.mem_cons]
    constructor
    · intro h
      rcases h with h | h
      · exact Or.inl h
      · exact Or.inr (ih.mp (List.mem_filter.mp h).1)
    · intro h
      rcases h with h | h
      · exact Or.inl h
      · by_cases hxk : x = k
        · exact Or.inl hxk
        · exact Or.inr (List.mem_filter.mpr ⟨ih.mpr h, by simp [hxk]⟩)

/-- The distinct-in-order list is no longer than the input. -/
theorem length_firstOccur_le {K : Type} [DecidableEq K] (l : List K) :
    (firstOccur l).length ≤ l.length := by
  induction l with
  | nil => simp [firstOccur]
  | cons k ks ih =>
    simp only [firstOccur, List.length_cons]
    have := List.length_filter_le (fun x => decide (x ≠ k)) (firstOccur ks)
    omega

/-- The index of the first occurrence of an element in a list (the list's
length when absent). -/
def firstIdx {K : Type} [DecidableEq K] (x : K) : List K → Nat
  | [] => 0
  | k :: ks => if k = x then 0 else firstIdx x ks + 1

/-- The first-occurrence index of the head of a list is zero. -/
theorem firstIdx_cons_self {K : Type} [DecidableEq K] (k : K) (ks : List K) :
    firstIdx k (k :: ks) = 0 := by
  simp [firstIdx]

/-- The first-occurrence index past a differing head increments. -/
theorem firstIdx_cons_ne {K : Type} [DecidableEq K] (x k : K) (ks : List K)
    (h : k ≠ x) : firstIdx x (k :: ks) = firstIdx x ks + 1 := by
  simp [firstIdx, h]

/-- The distinct-in-order list is ordered by first occurrence index in the
input. -/
theorem pairwise_firstOccur {K : Type} [DecidableEq K] (l : List K) :
    (firstOccur l).Pairwise (fun a b => firstIdx a l < firstIdx b l) := by
  induction l with
  | nil => simp [firstOccur]
  | cons k ks ih =>
    simp only [firstOccur, List.pairwise_cons]
    constructor
    · intro b hb
      have hbk : b ≠ k := by
        have := (List.mem_filter.mp hb).2
        simpa using this
      rw [firstIdx_cons_self, firstIdx_cons_ne b k ks hbk.symm]
      exact Nat.succ_pos _
    · have hflt : ((firstOccur ks).filter (fun x => decide (x ≠ k))).Pairwise
          (fun a b => firstIdx a ks < firstIdx b ks) := ih.filter _
      apply hflt.imp_of_mem
      intro a b ha hb hab
      have hak : a ≠ k := by simpa using (List.mem_filter.mp ha).2
      have hbk : b ≠ k := by simpa using (List.mem_filter.mp hb).2
      rw [firstIdx_cons_ne a k ks hak.symm, firstIdx_cons_ne b k ks hbk.symm]
      exact Nat.succ_lt_succ hab

/-- In a group list with distinct keys, a member entry's values are its
key's bucket. -/
theorem bucketOf_mem_nodup {K : Type} [DecidableEq K] (k : K) (vs : List Int)
    (l : List (K × List Int)) (hnd : (l.map Prod.fst).Nodup)
    (hmem : (k, vs) ∈ l) : bucketOf k l = vs := by
  induction l with
  | nil => simp at hmem
  | cons g gs ih =>
    simp only [List.map_cons, List.nodup_cons] at hnd
    obtain ⟨hg, hgs⟩ := hnd
    rcases List.mem_cons.mp hmem with he | he
    · subst he
      simp [bucketOf_cons]
    · have hk : g.1 ≠ k := by
        intro hgk
        exact hg (hgk ▸ List.mem_map.mpr ⟨(k, vs), he, rfl⟩)
      rw [bucketOf_cons, if_neg hk]
      exact ih hgs he

/-- The keys of the grouped rows are the input keys' distinct values in order
of first appearance. -/
theorem keys_groupRows {K : Type} [DecidableEq K] (key : Row → K)
    (num : Row → Int) (rows : List Row) :
    (groupRows key num rows).map Prod.fst = firstOccur (rows.map key) := by
  have h := keys_groupFold key num rows []
  simp only [List.map_nil, List.nil_append] at h
  rw [groupRows, h]
  apply List.filter_eq_self.mpr
  intro x _
  simp

/-- C5: the grouped-and-aggregated dataset has one row per distinct group-key
combination present in the input (keys duplicate-free, with exactly the
input's key set), rows in order of first appearance of their key, sum
aggregates equal to the arithmetic sum of each group's values, and row count
at most the input's. -/
theorem C5_group_and_aggregate (d : Dataset) (gcols : List String)
    (ncol out : String) :
    (groupAndAggregate d gcols ncol out).rows.length ≤ d.rows.length
    ∧ ((groupRows (keyOf gcols) (numOf ncol) d.rows).map Prod.fst).Nodup
    ∧ (∀ k : List Value,
        k ∈ (groupRows (keyOf gcols) (numOf ncol) d.rows).map Prod.fst
          ↔ k ∈ d.rows.map (keyOf gcols))
    ∧ ((groupRows (keyOf gcols) (numOf ncol) d.rows).map Prod.fst).Pairwise
        (fun a b => firstIdx a (d.rows.map (keyOf gcols))
          < firstIdx b (d.rows.map (keyOf gcols)))
    ∧ (∀ k ∈ (groupRows (keyOf gcols) (numOf ncol) d.rows).map Prod.fst,
        (gcols.zip k
          ++ [(out, Value.vint
              (((d.rows.filter (fun r => decide (keyOf gcols r = k))).map
                  (numOf ncol)).sum))])
          ∈ (groupAndAggregate d gcols ncol out).rows) := by
  have hkeys : (groupRows (keyOf gcols) (numOf ncol) d.rows).map Prod.fst
      = firstOccur (d.rows.map (keyOf gcols)) :=
    keys_groupRows (keyOf gcols) (numOf ncol) d.rows
  refine ⟨?_, ?_, ?_, ?_, ?_⟩
  · have h1 : (groupAndAggregate d gcols ncol out).rows.length
        = (groupRows (keyOf gcols) (numOf ncol) d.rows).length := by
      simp [groupAndAggregate]
    have h2 : (groupRows (keyOf gcols) (numOf ncol) d.rows).length
        = ((groupRows (keyOf gcols) (numOf ncol) d.rows).map Prod.fst).length := by
      simp
    rw [h1, h2, hkeys]
    have h3 := length_firstOccur_le (d.rows.map (keyOf gcols))
    simpa using h3
  · rw [hkeys]; exact nodup_firstOccur _
  · intro k
    rw [hkeys]
    exact mem_firstOccur k (d.rows.map (keyOf gcols))
  · rw [hkeys]; exact pairwise_firstOccur (d.rows.map (keyOf gcols))
  · intro k hk
    obtain ⟨⟨g1, g2⟩, hgmem, hfst⟩ := List.mem_map.mp hk
    simp only at hfst
    subst hfst
    have hnd : ((groupRows (keyOf gcols) (numOf ncol) d.rows).map Prod.fst).Nodup := by
      rw [hkeys]; exact nodup_firstOccur _
    have hbucket1 : bucketOf g1 (groupRows (keyOf gcols) (numOf ncol) d.rows)
        = g2 :=
      bucketOf_mem_nodup g1 g2 _ hnd hgmem
    have hbucket2 : bucketOf g1 (groupRows (keyOf gcols) (numOf ncol) d.rows)
        = (d.rows.filter (fun r => decide (keyOf gcols r = g1))).map (numOf ncol) := by
      have h := bucketOf_groupFold (keyOf gcols) (numOf ncol) d.rows [] g1
      simpa [groupRows, bucketOf] using h
    apply List.mem_map.mpr
    refine ⟨(g1, g2), hgmem, ?_⟩
    rw [← hbucket2, hbucket1]

/-- The grouping witness dataset: Year values 2006, 2007, 2006 with counts
1, 2, 3, so the 2006 group sums to 4. -/
def exGroup : Dataset :=
  { cols := ["Year", "count"]
  , rows := [ [("Year", Value.vint 2006), ("count", Value.vint 1)]
            , [("Year", Value.vint 2007), ("count", Value.vint 2)]
            , [("Year", Value.vint 2006), ("count", Value.vint 3)] ] }

/-- Witness for C5: the 2006 group of the witness dataset appears in the
output carrying the arithmetic sum of its counts. -/
theorem C5_group_and_aggregate_witness :
    [Value.vint 2006]
        ∈ (groupRows (keyOf ["Year"]) (numOf "count") exGroup.rows).map Prod.fst
    ∧ (["Year"].zip [Value.vint 2006]
        ++ [("year_total", Value.vint
            (((exGroup.rows.filter
                (fun r => decide (keyOf ["Year"] r = [Value.vint 2006]))).map
                (numOf "count")).sum))])
        ∈ (groupAndAggregate exGroup ["Year"] "count" "year_total").rows :=
  ⟨by decide,
   (C5_group_and_aggregate exGroup ["Year"] "count" "year_total").2.2.2.2
     [Value.vint 2006] (by decide)⟩

/-! ### Claim C1: sort is stable with nulls last -/

/-- The ascending order on non-null values: integers by numeric order,
strings lexicographically, integers before strings (cross-kind comparisons
never arise within one column of a well-formed dataset; the order is total
regardless). -/
def nnLe : Value → Value → Bool
  | Value.vint a, Value.vint b => decide (a ≤ b)
  | Value.vint _, Value.vstr _ => true
  | Value.vstr _, Value.vint _ => false
  | Value.vstr a, Value.vstr b => decide (a ≤ b)
  | _, _ => true

/-- Modelled from the spec: the per-key comparison of Sort (spec 4.1 op 5) —
null sorts after every non-null value regardless of the direction flag; a
true flag compares non-null values descending. -/
def valLe (desc : Bool) : Value → Value → Bool
  | Value.vnull, Value.vnull => true
  | Value.vnull, _ => false
  | _, Value.vnull => true
  | a, b => if desc then nnLe b a else nnLe a b

/-- The direction-tagged key tuple of a row under the sort keys, in priority
order. -/
def keyVals (ks : List (String × Bool)) (r : Row) : List (Bool × Value) :=
  ks.map (fun k => (k.2, rowGet r k.1))

/-- Lexicographic comparison of direction-tagged key tuples: strictly smaller
first key decides, equal first keys recurse. -/
def lexLe : List (Bool × Value) → List (Bool × Value) → Bool
  | [], _ => true
  | _ :: _, [] => true
  | x :: xs, y :: ys =>
    if valLe x.1 x.2 y.2 then
      (if valLe x.1 y.2 x.2 then lexLe xs ys else true)
    else false

/-- Row comparison under the sort keys. -/
def rowLe (ks : List (String × Bool)) (r s : Row) : Bool :=
  lexLe (keyVals ks r) (keyVals ks s)

/-- Modelled from the spec: the Sort operation (spec 4.1 op 5) — a stable
sort of the rows by the keys in priority order, nulls last per key
regardless of direction. -/
def sortDS (d : Dataset) (ks : List (String × Bool)) : Dataset :=
  { cols := d.cols, rows := d.rows.mergeSort (rowLe ks) }

theorem valLe_refl (d : Bool) (a : Value) : valLe d a a = true := by
  cases a <;> cases d <;> simp [valLe, nnLe]

theorem valLe_total (d : Bool) (a b : Value) :
    valLe d a b = true ∨ valLe d b a = true := by
  cases a <;> cases b <;> cases d <;> simp [valLe, nnLe] <;>
    first
      | omega
      | exact le_total _ _

theorem valLe_trans (d : Bool) (a b c : Value) (h1 : valLe d a b = true)
    (h2 : valLe d b c = true) : valLe d a c = true := by
  cases a <;> cases b <;> cases c <;> cases d <;>
    simp [valLe, nnLe] at h1 h2 ⊢ <;>
    first
      | omega
      | exact le_trans h1 h2
      | exact le_trans h2 h1

theorem lexLe_refl (xs : List (Bool × Value)) : lexLe xs xs = true := by
  induction xs with
  | nil => rfl
  | cons x xs ih => simp [lexLe, valLe_refl, ih]

/-- Lexicographic comparison is total on tuples carrying the same flags. -/
theorem lexLe_total (xs ys : List (Bool × Value))
    (hf : xs.map Prod.fst = ys.map Prod.fst) :
    lexLe xs ys = true ∨ lexLe ys xs = true := by
  induction xs generalizing ys with
  | nil => exact Or.inl rfl
  | cons x xs' ih =>
    cases ys with
    | nil => exact Or.inr rfl
    | cons y ys' =>
      simp only [List.map_cons, List.cons.injEq] at hf
      obtain ⟨hf1, hft⟩ := hf
      by_cases hxy : valLe x.1 x.2 y.2 = true
      · by_cases hyx : valLe x.1 y.2 x.2 = true
        · rcases ih ys' hft with h3 | h3
          · exact Or.inl (by simp [lexLe, hxy, hyx, h3])
          · refine Or.inr ?_
            simp only [lexLe, ← hf1]
            simp [hyx, hxy, h3]
        · exact Or.inl (by simp [lexLe, hxy, hyx])
      · by_cases hyx : valLe x.1 y.2 x.2 = true
        · refine Or.inr ?_
          simp only [lexLe, ← hf1]
          simp [hyx, hxy]
        · rcases valLe_total x.1 x.2 y.2 with h | h
          · exact absurd h hxy
          · exact absurd h hyx

/-- Lexicographic comparison is transitive on tuples carrying the same
flags. -/
theorem lexLe_trans (xs : List (Bool × Value)) :
    ∀ ys zs : List (Bool × Value),
    xs.map Prod.fst = ys.map Prod.fst → ys.map Prod.fst = zs.map Prod.fst →
    lexLe xs ys = true → lexLe ys zs = true → lexLe xs zs = true := by
  induction xs with
  | nil => intro ys zs _ _ _ _; rfl
  | cons x xs' ih =>
    intro ys zs hxy hyz h1 h2
    cases ys with
    | nil => simp at hxy
    | cons y ys' =>
      cases zs with
      | nil => simp at hyz
      | cons z zs' =>
        simp only [List.map_cons, List.cons.injEq] at hxy hyz
        obtain ⟨hf1, ht1⟩ := hxy
        obtain ⟨hf2, ht2⟩ := hyz
        simp only [lexLe] at h1 h2 ⊢
        rw [← hf1] at h2
        by_cases hxy1 : valLe x.1 x.2 y.2 = true
        · by_cases hyz1 : valLe x.1 y.2 z.2 = true
          · have hxz1 : valLe x.1 x.2 z.2 = true :=
              valLe_trans x.1 x.2 y.2 z.2 hxy1 hyz1
            rw [if_pos hxz1]
            by_cases hzx : valLe x.1 z.2 x.2 = true
            · rw [if_pos hzx]
              have hyx : valLe x.1 y.2 x.2 = true :=
                valLe_trans x.1 y.2 z.2 x.2 hyz1 hzx
              have hzy : valLe x.1 z.2 y.2 = true :=
                valLe_trans x.1 z.2 x.2 y.2 hzx hxy1
              rw [if_pos hxy1, if_pos hyx] at h1
              rw [if_pos hyz1, if_pos hzy] at h2
              exact ih ys' zs' ht1 ht2 h1 h2
            · rw [if_neg hzx]
          · rw [if_neg hyz1] at h2
            simp at h2
        · rw [if_neg hxy1] at h1
          simp at h1

/-- Key tuples of any two rows under the same sort keys carry the same
flags. -/
theorem keyVals_flags (ks : List (String × Bool)) (r : Row) :
    (keyVals ks r).map Prod.fst = ks.map Prod.snd := by
  rw [keyVals, List.map_map]
  rfl

theorem rowLe_trans (ks : List (String × Bool)) (r s t : Row)
    (h1 : rowLe ks r s = true) (h2 : rowLe ks s t = true) :
    rowLe ks r t = true :=
  lexLe_trans (keyVals ks r) (keyVals ks s) (keyVals ks t)
    (by rw [keyVals_flags, keyVals_flags])
    (by rw [keyVals_flags, keyVals_flags]) h1 h2

theorem rowLe_total (ks : List (String × Bool)) (r s : Row) :
    (rowLe ks r s || rowLe ks s r) = true := by
  rcases lexLe_total (keyVals ks r) (keyVals ks s)
      (by rw [keyVals_flags, keyVals_flags]) with h | h
  · simp [rowLe, h]
  · simp [rowLe, h]

/-- Within one key position, after an equal prefix of key values, a non-null
value sorts strictly before null whatever the direction flag says. -/
theorem lexLe_null_last (dk : Bool) (v : Value) (hv : v ≠ Value.vnull) :
    ∀ (p tx ty : List (Bool × Value)),
    lexLe (p ++ (dk, v) :: ty) (p ++ (dk, Value.vnull) :: tx) = true
    ∧ lexLe (p ++ (dk, Value.vnull) :: tx) (p ++ (dk, v) :: ty) = false := by
  intro p
  induction p with
  | nil =>
    intro tx ty
    have h1 : valLe dk v Value.vnull = true := by
      cases v with
      | vnull => exact absurd rfl hv
      | vint a => simp [valLe]
      | vstr a => simp [valLe]
    have h2 : valLe dk Value.vnull v = false := by
      cases v with
      | vnull => exact absurd rfl hv
      | vint a => simp [valLe]
      | vstr a => simp [valLe]
    constructor
    · simp [lexLe, h1, h2]
    · simp [lexLe, h2]
  | cons q p' ih =>
    intro tx ty
    constructor
    · simp only [List.cons_append, lexLe, valLe_refl]
      simp [(ih tx ty).1]
    · simp only [List.cons_append, lexLe, valLe_refl]
      simp [(ih tx ty).2]

/-- C1: sort returns a permutation of the rows ordered by the keys in
priority order (pairwise non-decreasing under the key comparison), keeps the
columns, is stable (rows with equal key tuples keep their input order), and
orders null key values after non-null ones at the same key position whatever
that key's direction flag is. -/
theorem C1_sort_stable_nulls_last (d : Dataset) (ks : List (String × Bool)) :
    (sortDS d ks).rows.Perm d.rows
    ∧ (sortDS d ks).cols = d.cols
    ∧ (sortDS d ks).rows.Pairwise (fun r s => rowLe ks r s = true)
    ∧ (∀ r s : Row, [r, s].Sublist d.rows → keyVals ks r = keyVals ks s →
        [r, s].Sublist (sortDS d ks).rows)
    ∧ (∀ (r s : Row) (p : List (Bool × Value)) (dk : Bool) (v : Value)
          (tx ty : List (Bool × Value)),
        keyVals ks r = p ++ (dk, Value.vnull) :: tx →
        keyVals ks s = p ++ (dk, v) :: ty →
        v ≠ Value.vnull →
        rowLe ks s r = true ∧ rowLe ks r s = false) := by
  have htrans : ∀ a b c : Row, rowLe ks a b = true → rowLe ks b c = true →
      rowLe ks a c = true :=
    fun a b c h1 h2 => rowLe_trans ks a b c h1 h2
  have htotal : ∀ a b : Row, (rowLe ks a b || rowLe ks b a) = true :=
    fun a b => rowLe_total ks a b
  refine ⟨?_, rfl, ?_, ?_, ?_⟩
  · exact List.mergeSort_perm d.rows (rowLe ks)
  · exact List.sorted_mergeSort htrans htotal d.rows
  · intro r s hsub hkeq
    apply List.pair_sublist_mergeSort htrans htotal ?_ hsub
    show rowLe ks r s = true
    rw [rowLe, hkeq]
    exact lexLe_refl _
  · intro r s p dk v tx ty hr hs hv
    have h := lexLe_null_last dk v hv p tx ty
    constructor
    · rw [rowLe, hs, hr]; exact h.1
    · rw [rowLe, hr, hs]; exact h.2

/-- A sort-witness row: Year 2006, count 5, gender male. -/
def rowEq1 : Row :=
  [("Year", Value.vint 2006), ("count", Value.vint 5), ("gender", Value.vstr "male")]

/-- A sort-witness row with the same key values as `rowEq1` but a different
gender cell. -/
def rowEq2 : Row :=
  [("Year", Value.vint 2006), ("count", Value.vint 5), ("gender", Value.vstr "female")]

/-- A sort-witness row whose count key is null. -/
def rowNull : Row := [("Year", Value.vint 2006), ("count", Value.vnull)]

/-- The script's sort keys: by Year then count; count descending here to
exercise the direction-independence of null placement. -/
def exSortKeys : List (String × Bool) := [("Year", false), ("count", true)]

/-- The sort-witness dataset: two rows with equal key tuples. -/
def exSort : Dataset :=
  { cols := ["Year", "count", "gender"], rows := [rowEq1, rowEq2] }

/-- Witness for C1: equal-keyed rows keep their order through the sort, and a
null count sorts after a non-null count even under a descending flag. -/
theorem C1_sort_stable_nulls_last_witness :
    [rowEq1, rowEq2].Sublist (sortDS exSort exSortKeys).rows
    ∧ rowLe exSortKeys rowEq1 rowNull = true
    ∧ rowLe exSortKeys rowNull rowEq1 = false := by
  have h := C1_sort_stable_nulls_last exSort exSortKeys
  have hnull := h.2.2.2.2 rowNull rowEq1 [(false, Value.vint 2006)] true
      (Value.vint 5) [] [] (by decide) (by decide) (by decide)
  exact ⟨h.2.2.2.1 rowEq1 rowEq2 (List.Sublist.refl _) (by decide),
    hnull.1, hnull.2⟩

/-! ### Claim C2: join cardinality -/

/-- Modelled from the spec: the Join operation (spec 4.1 op 7), inner kind —
"only matching keys": each left row combines with every right row sharing
its value in the join column; the right copy of the key column is dropped. -/
def innerJoin (l r : Dataset) (c : String) : Dataset :=
  { cols := l.cols ++ r.cols.filter (fun n => !(decide (n = c)))
  , rows := l.rows.flatMap (fun lr =>
      (r.rows.filter (fun rr => decide (rowGet rr c = rowGet lr c))).map
        (fun rr => lr ++ rr.filter (fun p => !(decide (p.1 = c))))) }

/-- The all-null right-hand cells appended to an unmatched left row. -/
def nullRow (cols : List String) (c : String) : Row :=
  (cols.filter (fun n => !(decide (n = c)))).map (fun n => (n, Value.vnull))

/-- Modelled from the spec: the Join operation (spec 4.1 op 7), left kind —
"all left rows, unmatched right columns null". -/
def leftJoin (l r : Dataset) (c : String) : Dataset :=
  { cols := l.cols ++ r.cols.filter (fun n => !(decide (n = c)))
  , rows := l.rows.flatMap (fun lr =>
      if (r.rows.filter (fun rr => decide (rowGet rr c = rowGet lr c))).isEmpty
      then [lr ++ nullRow r.cols c]
      else (r.rows.filter (fun rr => decide (rowGet rr c = rowGet lr c))).map
        (fun rr => lr ++ rr.filter (fun p => !(decide (p.1 = c))))) }

/-- The values of a dataset's join column, in row order. -/
def keyList (d : Dataset) (c : String) : List Value :=
  d.rows.map (fun r => rowGet r c)

/-- The rows of `l` whose join-key value appears somewhere in `r` — the
"matching" rows of the cardinality property. -/
def matchingRows (l r : Dataset) (c : String) : List Row :=
  l.rows.filter (fun lr => decide (rowGet lr c ∈ keyList r c))

/-- A one-column dataset holding the Year value 2006 twice. -/
def exJoinDup : Dataset :=
  { cols := ["Year"]
  , rows := [[("Year", Value.vint 2006)], [("Year", Value.vint 2006)]] }

/-- A one-column dataset holding the Year value 2006 once. -/
def exJoinOne : Dataset :=
  { cols := ["Year"], rows := [[("Year", Value.vint 2006)]] }

/-- C2 as stated is false: with the key 2006 duplicated on the left and
present once on the right, the inner join has 2 rows while
min(|left matching|, |right matching|) = 1; and with the key duplicated on
the right, the left join of a 1-row left dataset has 2 rows, not 1. -/
theorem C2_join_cardinality_counterexample :
    ¬((innerJoin exJoinDup exJoinOne "Year").rows.length
        ≤ min (matchingRows exJoinDup exJoinOne "Year").length
            (matchingRows exJoinOne exJoinDup "Year").length)
    ∧ (leftJoin exJoinOne exJoinDup "Year").rows.length
        ≠ exJoinOne.rows.length := by
  decide

/-- The matched right rows of a left row are counted by the key's
multiplicity in the right key list. -/
theorem length_filter_key (rows : List Row) (c : String) (k : Value) :
    (rows.filter (fun rr => decide (rowGet rr c = k))).length
      = (rows.map (fun rr => rowGet rr c)).count k := by
  induction rows with
  | nil => rfl
  | cons a rows ih =>
    by_cases h : rowGet a c = k <;>
      simp [List.filter_cons, List.count_cons, h, ih]

/-- Filtering rows on key membership matches filtering the key list. -/
theorem length_filter_mem (rows : List Row) (c : String) (ks : List Value) :
    (rows.filter (fun lr => decide (rowGet lr c ∈ ks))).length
      = ((rows.map (fun lr => rowGet lr c)).filter
          (fun v => decide (v ∈ ks))).length := by
  induction rows with
  | nil => rfl
  | cons a rows ih =>
    by_cases h : rowGet a c ∈ ks <;> simp [List.filter_cons, h, ih]

/-- Filtering on equality with a fixed element counts its occurrences. -/
theorem length_filter_eq_count {α : Type} [DecidableEq α] (ys : List α) (x : α) :
    (ys.filter (fun v => decide (v = x))).length = ys.count x := by
  induction ys with
  | nil => rfl
  | cons a ys ih =>
    by_cases h : a = x <;> simp [List.filter_cons, List.count_cons, h, ih]

/-- Lengths of filters over exclusive predicates add. -/
theorem length_filter_or {α : Type} (l : List α) (p q : α → Bool)
    (hex : ∀ v ∈ l, ¬(p v = true ∧ q v = true)) :
    (l.filter (fun v => p v || q v)).length
      = (l.filter p).length + (l.filter q).length := by
  induction l with
  | nil => rfl
  | cons a l ih =>
    have hex' : ∀ v ∈ l, ¬(p v = true ∧ q v = true) :=
      fun v hv => hex v (List.mem_cons_of_mem a hv)
    have ha := hex a (List.mem_cons_self a l)
    cases hp : p a with
    | true =>
      cases hq : q a with
      | true => exact absurd ⟨hp, hq⟩ ha
      | false =>
        simp only [List.filter_cons, hp, hq, Bool.true_or, if_pos, ite_true,
          Bool.false_eq_true, ite_false, List.length_cons, ih hex']
        omega
    | false =>
      cases hq : q a with
      | true =>
        simp only [List.filter_cons, hp, hq, Bool.false_or, if_pos, ite_true,
          Bool.false_eq_true, ite_false, List.length_cons, ih hex']
        omega
      | false =>
        simp only [List.filter_cons, hp, hq, Bool.false_or,
          Bool.false_eq_true, ite_false, ih hex']

/-- Under duplicate-free key lists, the common-member counts on both sides
agree. -/
theorem length_filter_mem_comm {α : Type} [DecidableEq α] (xs ys : List α)
    (hx : xs.Nodup) (hy : ys.Nodup) :
    (xs.filter (fun v => decide (v ∈ ys))).length
      = (ys.filter (fun v => decide (v ∈ xs))).length := by
  induction xs with
  | nil => simp
  | cons a xs ih =>
    simp only [List.nodup_cons] at hx
    obtain ⟨hax, hxs⟩ := hx
    have hsplit : (ys.filter (fun v => decide (v ∈ a :: xs))).length
        = (ys.filter (fun v => decide (v = a))).length
          + (ys.filter (fun v => decide (v ∈ xs))).length := by
      have hcongr : ys.filter (fun v => decide (v ∈ a :: xs))
          = ys.filter (fun v => decide (v = a) || decide (v ∈ xs)) := by
        apply List.filter_congr
        intro v _
        simp [List.mem_cons]
      rw [hcongr]
      apply length_filter_or
      intro v _ hvb
      obtain ⟨h1, h2⟩ := hvb
      simp only [decide_eq_true_eq] at h1 h2
      exact hax (h1 ▸ h2)
    rw [hsplit, length_filter_eq_count, ← ih hxs]
    by_cases hmem : a ∈ ys
    · rw [List.count_eq_one_of_mem hy hmem, List.filter_cons,
        if_pos (by simp [hmem])]
      simp only [List.length_cons]
      omega
    · rw [List.count_eq_zero_of_not_mem hmem, List.filter_cons,
        if_neg (by simp [hmem])]
      omega

/-- With a duplicate-free right key list, the inner join contributes exactly
one output row per matching left row. -/
theorem innerJoin_length_eq (l r : Dataset) (c : String)
    (hr : (keyList r c).Nodup) :
    (innerJoin l r c).rows.length = (matchingRows l r c).length := by
  simp only [innerJoin, matchingRows]
  induction l.rows with
  | nil => rfl
  | cons a rows ih =>
    simp only [List.flatMap_cons, List.length_append, List.length_map,
      List.filter_cons]
    rw [length_filter_key r.rows c (rowGet a c)]
    have hkl : (r.rows.map (fun rr => rowGet rr c)) = keyList r c := rfl
    rw [hkl, ih]
    by_cases hmem : rowGet a c ∈ keyList r c
    · rw [List.count_eq_one_of_mem hr hmem, if_pos (by simp [hmem])]
      simp only [List.length_cons]
      omega
    · rw [List.count_eq_zero_of_not_mem hmem, if_neg (by simp [hmem])]
      omega

/-- With a duplicate-free right key list, the left join contributes exactly
one output row per left row. -/
theorem leftJoin_length_eq (l r : Dataset) (c : String)
    (hr : (keyList r c).Nodup) :
    (leftJoin l r c).rows.length = l.rows.length := by
  simp only [leftJoin]
  induction l.rows with
  | nil => rfl
  | cons a rows ih =>
    simp only [List.flatMap_cons, List.length_append]
    by_cases hmem : rowGet a c ∈ keyList r c
    · have hlen : (r.rows.filter
          (fun rr => decide (rowGet rr c = rowGet a c))).length = 1 := by
        rw [length_filter_key r.rows c (rowGet a c)]
        exact List.count_eq_one_of_mem hr (by simpa [keyList] using hmem)
      have hne : (r.rows.filter
          (fun rr => decide (rowGet rr c = rowGet a c))).isEmpty = false := by
        cases he : (r.rows.filter
            (fun rr => decide (rowGet rr c = rowGet a c))) with
        | nil => rw [he] at hlen; simp at hlen
        | cons x xs => simp [he]
      rw [if_neg (by simp [hne]), List.length_map, hlen, ih]
      simp only [List.length_cons]
      omega
    · have hlen : (r.rows.filter
          (fun rr => decide (rowGet rr c = rowGet a c))).length = 0 := by
        rw [length_filter_key r.rows c (rowGet a c)]
        exact List.count_eq_zero_of_not_mem (by simpa [keyList] using hmem)
      have hempty : (r.rows.filter
          (fun rr => decide (rowGet rr c = rowGet a c))).isEmpty = true := by
        cases he : (r.rows.filter
            (fun rr => decide (rowGet rr c = rowGet a c))) with
        | nil => simp [he]
        | cons x xs => rw [he] at hlen; simp at hlen
      rw [if_pos (by simp [hempty]), ih]
      simp only [List.length_cons, List.length_nil]
      omega

/-- C2 amended: when the join-key values are unique within each dataset, the
inner join's row count is at most (in fact equals) both matching-row counts,
so at most their minimum; and when they are unique within the right dataset,
the left join's row count equals the left dataset's row count. -/
theorem C2_join_cardinality_amended (l r : Dataset) (c : String) :
    ((keyList l c).Nodup → (keyList r c).Nodup →
      (innerJoin l r c).rows.length
        ≤ min (matchingRows l r c).length (matchingRows r l c).length)
    ∧ ((keyList r c).Nodup → (leftJoin l r c).rows.length = l.rows.length) := by
  constructor
  · intro hl hr
    have h1 : (innerJoin l r c).rows.length = (matchingRows l r c).length :=
      innerJoin_length_eq l r c hr
    have h2 : (matchingRows l r c).length = (matchingRows r l c).length := by
      rw [matchingRows, matchingRows, length_filter_mem, length_filter_mem]
      exact length_filter_mem_comm (keyList l c) (keyList r c) hl hr
    omega
  · intro hr
    exact leftJoin_length_eq l r c hr

/-- Witness for the amended C2 at concrete datasets with unique keys: a
2-row left table against a 1-row right table. -/
def exJoinL : Dataset :=
  { cols := ["Year"]
  , rows := [[("Year", Value.vint 2006)], [("Year", Value.vint 2013)]] }

/-- Witness for C2 amended: with unique keys on both sides the inner join
satisfies the min bound and the left join keeps the left row count. -/
theorem C2_join_cardinality_amended_witness :
    (keyList exJoinL "Year").Nodup ∧ (keyList exJoinOne "Year").Nodup
    ∧ (innerJoin exJoinL exJoinOne "Year").rows.length
        ≤ min (matchingRows exJoinL exJoinOne "Year").length
            (matchingRows exJoinOne exJoinL "Year").length
    ∧ (leftJoin exJoinL exJoinOne "Year").rows.length
        = exJoinL.rows.length :=
  ⟨by decide, by decide,
   (C2_join_cardinality_amended exJoinL exJoinOne "Year").1 (by decide) (by decide),
   (C2_join_cardinality_amended exJoinL exJoinOne "Year").2 (by decide)⟩

/-! ### Claim C10: the derive step's frame effect, corrected for the later
stages -/

/-- A dataset mirroring the loaded CSV `df` of the script: the census schema
with its Sex column (one representative row).  The join and concatenation
stages of the script consume this dataset, not the derived one. -/
def exDf : Dataset :=
  { cols := ["Year", "Age", "Ethnic", "Sex", "Area", "count"]
  , rows := [ [("Year", Value.vint 2018), ("Age", Value.vint 0)
              , ("Ethnic", Value.vint 1), ("Sex", Value.vint 1)
              , ("Area", Value.vint 1), ("count", Value.vint 795)] ] }

/-- The script's `df2`: a single Year column with the four probe years. -/
def exDf2 : Dataset :=
  { cols := ["Year"]
  , rows := [ [("Year", Value.vint 2006)], [("Year", Value.vint 2013)]
            , [("Year", Value.vint 2018)], [("Year", Value.vint 2019)] ] }

/-- The script's `df3` literal, which carries a Sex column of its own. -/
def exDf3 : Dataset :=
  { cols := ["Year", "Age", "Ethnic", "Sex", "Area", "count"]
  , rows := [ [("Year", Value.vint 2020), ("Age", Value.vint 0)
              , ("Ethnic", Value.vint 1), ("Sex", Value.vint 1)
              , ("Area", Value.vint 1), ("count", Value.vint 1000)] ] }

/-- The claim's final clause is false of the script: the derive step removes
Sex from its own output, but the join stages consume the original loaded
dataset, whose Sex column survives into both join outputs, and the
concatenation stage consumes that dataset and the df3 literal, both of which
carry a Sex column. -/
theorem C10_sex_survives_later_stages :
    "Sex" ∉ (deriveGenderStep exDf).cols
    ∧ "Sex" ∈ (innerJoin exDf exDf2 "Year").cols
    ∧ "Sex" ∈ (leftJoin exDf2 exDf "Year").cols
    ∧ "Sex" ∈ exDf.cols
    ∧ "Sex" ∈ exDf3.cols := by
  decide

/-- C10 amended: the gender-derivation step yields a dataset whose columns
are the input columns minus Sex plus the new gender column; Sex is gone,
gender is present, row count is kept, every non-Sex column's values are
unchanged, the gender values are the first-match derivation from the Sex
codes, and the result is again well-formed.  Consequently the stages that
consume the derived dataset — filter, sort, and group-by over its columns —
never see a Sex column; but the join and concatenation stages consume the
original loaded dataset and the df3 literal, which still carry Sex. -/
theorem C10_derive_drops_sex_amended (d : Dataset) (h : d.WF)
    (hg : "gender" ∉ d.cols) :
    (deriveGenderStep d).cols
        = d.cols.filter (fun c => decide (c ≠ "Sex")) ++ ["gender"]
    ∧ "Sex" ∉ (deriveGenderStep d).cols
    ∧ "gender" ∈ (deriveGenderStep d).cols
    ∧ (deriveGenderStep d).rows.length = d.rows.length
    ∧ (∀ c ∈ d.cols, c ≠ "Sex" → colVals (deriveGenderStep d) c = colVals d c)
    ∧ colVals (deriveGenderStep d) "gender"
        = d.rows.map
            (fun r => firstMatch genderBranches (Value.vstr "others") (rowGet r "Sex"))
    ∧ (deriveGenderStep d).WF
    ∧ (∀ p : Row → Bool, "Sex" ∉ (filterDS (deriveGenderStep d) p).cols)
    ∧ (∀ (p : Row → Bool) (ks : List (String × Bool)),
        "Sex" ∉ (sortDS (filterDS (deriveGenderStep d) p) ks).cols)
    ∧ (∀ (p : Row → Bool) (ks : List (String × Bool)) (gcols : List String)
          (ncol out : String),
        (∀ c ∈ gcols, c ∈ (deriveGenderStep d).cols) → out ≠ "Sex" →
        "Sex" ∉ (groupAndAggregate (sortDS (filterDS (deriveGenderStep d) p) ks)
            gcols ncol out).cols)
    ∧ "Sex" ∈ (innerJoin exDf exDf2 "Year").cols
    ∧ "Sex" ∈ (leftJoin exDf2 exDf "Year").cols
    ∧ ("Sex" ∈ exDf.cols ∧ "Sex" ∈ exDf3.cols) := by
  obtain ⟨hnd, hrows⟩ := h
  have hcols : (deriveGenderStep d).cols
      = d.cols.filter (fun c => decide (c ≠ "Sex")) ++ ["gender"] := by
    simp only [deriveGenderStep, dropCols, deriveColumn, List.filter_append]
    have : ∀ c ∈ d.cols, (!(["Sex"].contains c)) = decide (c ≠ "Sex") := by
      intro c _
      by_cases hc : c = "Sex" <;> simp [hc]
    rw [List.filter_congr this]
    rfl
  have hSexNot : "Sex" ∉ (deriveGenderStep d).cols := by
    rw [hcols]
    simp
  refine ⟨hcols, hSexNot, ?_, ?_, ?_, ?_, ?_, ?_, ?_, ?_, ?_, ?_, ?_⟩
  · rw [hcols]
    simp
  · simp [deriveGenderStep, dropCols, deriveColumn]
  · intro c hc hcs
    have hcg : c ≠ "gender" := fun he => hg (he ▸ hc)
    simp only [colVals, deriveGenderStep, dropCols, deriveColumn, List.map_map]
    apply List.map_congr_left
    intro r hr
    have halign : r.map Prod.fst = d.cols := hrows r hr
    have hcr : c ∈ r.map Prod.fst := halign ▸ hc
    simp only [Function.comp]
    rw [List.filter_append]
    have hgname : (List.filter (fun p => !(["Sex"].contains p.1))
        [("gender", firstMatch genderBranches (Value.vstr "others") (rowGet r "Sex"))])
        = [("gender", firstMatch genderBranches (Value.vstr "others") (rowGet r "Sex"))] := by
      simp
    rw [hgname]
    have hmemfilter : c ∈ (r.filter (fun p => !(["Sex"].contains p.1))).map Prod.fst := by
      rcases List.mem_map.mp hcr with ⟨p, hp, hpc⟩
      exact List.mem_map.mpr ⟨p, List.mem_filter.mpr ⟨hp, by simp [hpc, hcs]⟩, hpc⟩
    rw [rowGet_append_left _ _ c hmemfilter]
    exact rowGet_filter r _ c (fun v => by simp [hcs])
  · simp only [colVals, deriveGenderStep, dropCols, deriveColumn, List.map_map]
    apply List.map_congr_left
    intro r hr
    have halign : r.map Prod.fst = d.cols := hrows r hr
    simp only [Function.comp]
    rw [List.filter_append]
    have hgname : (List.filter (fun p => !(["Sex"].contains p.1))
        [("gender", firstMatch genderBranches (Value.vstr "others") (rowGet r "Sex"))])
        = [("gender", firstMatch genderBranches (Value.vstr "others") (rowGet r "Sex"))] := by
      simp
    rw [hgname]
    have hnomem : "gender" ∉ (r.filter (fun p => !(["Sex"].contains p.1))).map Prod.fst := by
      intro hmem
      rcases List.mem_map.mp hmem with ⟨p, hp, hpc⟩
      exact hg (halign ▸ List.mem_map.mpr ⟨p, List.mem_filter.mp hp |>.1, hpc⟩)
    rw [rowGet_append_right _ _ "gender" hnomem, rowGet_cons_self]
  · constructor
    · rw [hcols]
      have hndf : (d.cols.filter (fun c => decide (c ≠ "Sex"))).Nodup :=
        hnd.filter _
      have hgf : "gender" ∉ d.cols.filter (fun c => decide (c ≠ "Sex")) := by
        intro hmem
        exact hg (List.mem_of_mem_filter hmem)
      rw [List.nodup_append]
      refine ⟨hndf, by simp, ?_⟩
      intro a ha hb
      simp only [List.mem_singleton] at hb
      subst hb
      exact hgf ha
    · intro r hr
      simp only [deriveGenderStep, dropCols, deriveColumn, List.map_map,
        List.mem_map] at hr
      obtain ⟨r0, hr0, hreq⟩ := hr
      subst hreq
      have halign : r0.map Prod.fst = d.cols := hrows r0 hr0
      simp only [Function.comp, List.filter_append]
      rw [hcols]
      rw [List.map_append]
      congr 1
      · have : (r0.filter (fun p => !(["Sex"].contains p.1))).map Prod.fst
            = (r0.map Prod.fst).filter (fun c => !(["Sex"].contains c)) := by
          rw [List.filter_map]
          rfl
        rw [this, halign]
        apply List.filter_congr
        intro c _
        by_cases hc : c = "Sex" <;> simp [hc]
  · intro p
    exact hSexNot
  · intro p ks
    exact hSexNot
  · intro p ks gcols ncol out hsub hout hmem
    rcases List.mem_append.mp hmem with hin | hin
    · exact hSexNot (hsub "Sex" hin)
    · simp only [List.mem_singleton] at hin
      exact hout hin.symm
  · decide
  · decide
  · exact ⟨by decide, by decide⟩

/-- Witness for the amended C10 at the concrete Sex dataset: the derive
output has gender and no Sex, and a downstream filter-sort-group chain over
the derived columns still has no Sex column. -/
theorem C10_derive_drops_sex_amended_witness :
    exSex.WF ∧ "gender" ∉ exSex.cols
    ∧ "Sex" ∉ (deriveGenderStep exSex).cols
    ∧ "gender" ∈ (deriveGenderStep exSex).cols
    ∧ (∀ c ∈ ["gender"], c ∈ (deriveGenderStep exSex).cols)
    ∧ "Sex" ∉ (groupAndAggregate
        (sortDS (filterDS (deriveGenderStep exSex) (fun _ => true))
          [("gender", false)])
        ["gender"] "count" "total").cols :=
  ⟨⟨by decide, by decide⟩, by decide,
   (C10_derive_drops_sex_amended exSex ⟨by decide, by decide⟩ (by decide)).2.1,
   (C10_derive_drops_sex_amended exSex ⟨by decide, by decide⟩ (by decide)).2.2.1,
   by decide,
   (C10_derive_drops_sex_amended exSex ⟨by decide, by decide⟩
       (by decide)).2.2.2.2.2.2.2.2.2.1
     (fun _ => true) [("gender", false)] ["gender"] "count" "total"
     (by decide) (by decide)⟩

end PolarsEda
